import Mathlib

/-!
Verification of the point-tracking and keyframe-interpolation core of the
simple-media-caption repository.

Coordinates are embedded as exact rationals (`ℚ`); Python floats are modelled
as exact arithmetic.  The two source files embedded here are
`app/mask_manager.py` (keyframe interpolation, `get_interpolated_points`)
and `app/tracking.py` (`track_points_with_consensus`).

External library calls (`cv2.VideoCapture`, `cv2.calcOpticalFlowPyrLK`,
`cv2.KalmanFilter`) are not repository code; they are modelled as parameters:
the frame source by the number `F` of readable frames, optical flow by an
oracle function, and the Kalman filter by an abstract state machine.
-/

abbrev Point : Type := ℚ × ℚ

/-! ## Keyframe interpolation (`app/mask_manager.py`, `get_interpolated_points`) -/

/-- A keyframe: an integer frame number with a list of vertex positions
(`{frame: int, points: list}` in the source). -/
structure Keyframe where
  frame : ℤ
  points : List Point

/-- A mask, reduced to the only field `get_interpolated_points` reads. -/
structure Mask where
  keyframes : List Keyframe

/-- The scan loop of `get_interpolated_points` (mask_manager.py lines 355-360):
walk the keyframe list, remembering the last keyframe with `frame <= target`
as `prev`, and stopping at the first keyframe with `frame > target` as
`next`. -/
def findKeyframes (frame : ℤ) : List Keyframe → Option Keyframe →
    Option Keyframe × Option Keyframe
  | [], prevK => (prevK, none)
  | kf :: rest, prevK =>
    if kf.frame ≤ frame then findKeyframes frame rest (some kf)
    else (prevK, some kf)

/-- The interpolation core of `get_interpolated_points`
(mask_manager.py lines 368-382): guard against a zero frame difference,
otherwise linearly interpolate each zipped vertex pair by
`factor = (frame - prev.frame) / (next.frame - prev.frame)`. -/
def interpolateBetween (prevK nextK : Keyframe) (frame : ℤ) : List Point :=
  let totalFrames : ℤ := nextK.frame - prevK.frame
  if totalFrames = 0 then
    prevK.points
  else
    let factor : ℚ := ((frame - prevK.frame : ℤ) : ℚ) / ((totalFrames : ℤ) : ℚ)
    (prevK.points.zip nextK.points).map (fun pq =>
      (pq.1.1 + (pq.2.1 - pq.1.1) * factor, pq.1.2 + (pq.2.2 - pq.1.2) * factor))

/-- `MaskManager.get_interpolated_points` (mask_manager.py lines 346-382):
empty keyframe list yields `[]`; no `prev` yields the first keyframe's
points; no `next` yields the last keyframe's points; otherwise interpolate. -/
def get_interpolated_points (mask : Mask) (frame : ℤ) : List Point :=
  if mask.keyframes.isEmpty then []
  else
    match findKeyframes frame mask.keyframes none with
    | (none, _) => (mask.keyframes.headD ⟨0, []⟩).points
    | (some _, none) => (mask.keyframes.getLastD ⟨0, []⟩).points
    | (some p, some n) => interpolateBetween p n frame

/-! ## Consensus filtering (`app/tracking.py` lines 174-230) -/

/-- Insert a rational into an already sorted list (ascending). -/
def insertSorted (x : ℚ) : List ℚ → List ℚ
  | [] => [x]
  | y :: ys => if x ≤ y then x :: y :: ys else y :: insertSorted x ys

/-- Ascending sort of a list of rationals, used to model the sort inside
`np.median`. -/
def insertionSort : List ℚ → List ℚ
  | [] => []
  | x :: xs => insertSorted x (insertionSort xs)

/-- `np.median` over exact rationals: sort ascending, take the middle element
for odd length, the mean of the two middle elements for even length. -/
def npMedian (l : List ℚ) : ℚ :=
  let s := insertionSort l
  let n := s.length
  if n % 2 = 1 then s.getD (n / 2) 0
  else (s.getD (n / 2 - 1) 0 + s.getD (n / 2) 0) / 2

/-- The consensus branch of the per-vertex filter (tracking.py lines 179-212):
displacements of each pooled estimate from `originalPos` (the source passes
`initial_points[i]` here), per-axis median displacement, keep estimates within
the 10 px threshold of the median on both axes, average the kept ones, and
fall back to `originalPos + median displacement` when none survive. -/
def consensusFilter (originalPos : Point) (positions : List Point) : Point :=
  let movementVectors :=
    positions.map (fun p => (p.1 - originalPos.1, p.2 - originalPos.2))
  let medianDx := npMedian (movementVectors.map Prod.fst)
  let medianDy := npMedian (movementVectors.map Prod.snd)
  let consensusSamples :=
    (movementVectors.zip positions).filterMap (fun vp =>
      if |vp.1.1 - medianDx| < 10 ∧ |vp.1.2 - medianDy| < 10 then some vp.2
      else none)
  if consensusSamples.isEmpty then
    (originalPos.1 + medianDx, originalPos.2 + medianDy)
  else
    ((consensusSamples.map Prod.fst).sum / consensusSamples.length,
     (consensusSamples.map Prod.snd).sum / consensusSamples.length)

/-- The simple-average branch of the per-vertex filter
(tracking.py lines 213-217). -/
def averageFilter (positions : List Point) : Point :=
  ((positions.map Prod.fst).sum / positions.length,
   (positions.map Prod.snd).sum / positions.length)

/-! ## Vertex tracker (`app/tracking.py`, `track_points_with_consensus`) -/

/-- Configuration parameters of `track_points_with_consensus`
(tracking.py lines 13-14).  An empty `windowSizes` models the
`None`/empty default case, which the source replaces with `[21]`. -/
structure TrackConfig where
  useShiftedPoints : Bool
  shiftValue : ℚ
  windowSizes : List ℕ
  filterMethod : String

/-- Abstract model of the external `cv2.KalmanFilter` objects the tracker
creates (tracking.py lines 84-106): `init` builds the filter seeded at an
initial point (`statePost = (x, y, 0, 0)`), `predict` advances the filter and
returns the predicted position (`predict()[:2]`), `correct` folds in a
measurement, and `post` reads `statePost[:2]`. -/
structure KalmanModel (κ : Type) where
  init : Point → κ
  predict : κ → κ × Point
  correct : Point → κ → κ
  post : κ → Point

/-- A flow oracle models the external `cv2.calcOpticalFlowPyrLK` call
(tracking.py lines 134-136): given the frame index, the window-size index
and the current sample points, it yields the per-sample tracked positions
and found/not-found statuses. -/
abbrev FlowOracle : Type := ℕ → ℕ → List Point → List Point × List Bool

/-- The sample points generated for one vertex (tracking.py lines 51-70 and
239-258): the center point plus, when enabled, four points shifted by
`shiftValue` up, down, left and right. -/
def vertexSamples (useShifted : Bool) (s : ℚ) (p : Point) : List Point :=
  (p.1, p.2) ::
    (if useShifted then
      [(p.1, p.2 - s), (p.1, p.2 + s), (p.1 - s, p.2), (p.1 + s, p.2)]
    else [])

/-- The sample offsets generated for one vertex, parallel to
`vertexSamples` (tracking.py lines 55-70 and 244-258). -/
def vertexOffsets (useShifted : Bool) (s : ℚ) : List Point :=
  (0, 0) :: (if useShifted then [(0, -s), (0, s), (-s, 0), (s, 0)] else [])

/-- The mutable state threaded through the per-frame loop of
`track_points_with_consensus`: the current sample points, their offsets, the
Kalman filter bank, and the trajectory accumulated so far. -/
structure TrackState (κ : Type) where
  samples : List Point
  offsets : List Point
  bank : List κ
  tracked : List (List (Option Point))

/-- Processing of one sample index `j` inside the valid-sample collection
(tracking.py lines 154-172): when the status flag is set, run the sample's
Kalman filter (predict, then correct with the measured position, discarding
the predicted value), read `statePost[:2]`, subtract the sample's offset
(`sample_offsets[j % len(sample_offsets)]`) and record the adjusted
position.  Indexing the bank out of range cannot happen when the oracle
returns as many outputs as inputs, as `cv2` does; it is modelled as a skip. -/
def processSample (model : KalmanModel κ) (nextPts : List Point)
    (status : List Bool) (offsets : List Point)
    (acc : List Point × List κ) (j : ℕ) : List Point × List κ :=
  if j < status.length ∧ status.getD j false = true then
    match acc.2.get? j with
    | some kf =>
      let kf1 := (model.predict kf).1
      let kf2 := model.correct (nextPts.getD j (0, 0)) kf1
      let fp := model.post kf2
      let off := offsets.getD (j % offsets.length) (0, 0)
      (acc.1 ++ [(fp.1 - off.1, fp.2 - off.2)], acc.2.set j kf2)
    | none => acc
  else acc

/-- Collection of the valid tracked samples for vertex `i` across all window
sizes (tracking.py lines 144-172): for each window's flow result, visit the
sample indices `j` in `[i*ppv, min(i*ppv + ppv, len(next_points)))` and feed
them through `processSample`, threading the Kalman bank. -/
def collectVertex (model : KalmanModel κ) (offsets : List Point) (ppv i : ℕ)
    (flows : List (List Point × List Bool)) (bank : List κ) :
    List Point × List κ :=
  flows.foldl (fun acc fw =>
    let startIdx := i * ppv
    (List.range' startIdx (min (startIdx + ppv) fw.1.length - startIdx)).foldl
      (processSample model fw.1 fw.2 offsets) acc) ([], bank)

/-- The per-vertex filtering step (tracking.py lines 174-230): with valid
samples, apply the consensus filter (when selected and at least 3 estimates
pooled, with `initial_points[i]` as the reference position) or the simple
average; with no valid samples, fall back to the Kalman prediction of the
vertex's center sample when `i * ppv` is inside the filter bank, then to the
last known position, then to a lost (`none`) marker. -/
def filterVertex (model : KalmanModel κ) (filterMethod : String)
    (initialPoints : List Point) (tracked : List (List (Option Point)))
    (ppv i : ℕ) (positions : List Point) (bank : List κ) :
    Option Point × List κ :=
  if positions.isEmpty then
    let centerIdx := i * ppv
    match bank.get? centerIdx with
    | some kf =>
      let pr := model.predict kf
      (some pr.2, bank.set centerIdx pr.1)
    | none =>
      if 0 < tracked.length ∧ i < (tracked.getLastD []).length then
        ((tracked.getLastD []).getD i none, bank)
      else (none, bank)
  else
    if filterMethod = "consensus" ∧ 3 ≤ positions.length then
      (some (consensusFilter (initialPoints.getD i (0, 0)) positions), bank)
    else
      (some (averageFilter positions), bank)

/-- One iteration of the vertex loop `for i in range(len(initial_points))`
(tracking.py lines 143-230), threading the Kalman bank and appending one
filtered vertex. -/
def vertexStep (model : KalmanModel κ) (filterMethod : String)
    (initialPoints : List Point) (tracked : List (List (Option Point)))
    (offsets : List Point) (ppv : ℕ) (flows : List (List Point × List Bool))
    (acc : List (Option Point) × List κ) (i : ℕ) :
    List (Option Point) × List κ :=
  let cs := collectVertex model offsets ppv i flows acc.2
  let r := filterVertex model filterMethod initialPoints tracked ppv i cs.1 cs.2
  (acc.1 ++ [r.1], r.2)

/-- One iteration of the frame loop (tracking.py lines 118-271) at frame
index `t`: when sample points remain, run the flow oracle once per window
size, filter every vertex, append the frame's vertices to the trajectory and
regenerate the sample points from the non-lost vertices; when no sample
points remain, append an all-lost entry. -/
def trackStep (model : KalmanModel κ) (flow : FlowOracle) (cfg : TrackConfig)
    (initialPoints : List Point) (ppv numWindows : ℕ) (t : ℕ)
    (st : TrackState κ) : TrackState κ :=
  if st.samples.isEmpty then
    { st with tracked :=
        st.tracked ++ [List.replicate initialPoints.length none] }
  else
    let flows := (List.range numWindows).map (fun w => flow t w st.samples)
    let fv := (List.range initialPoints.length).foldl
      (vertexStep model cfg.filterMethod initialPoints st.tracked st.offsets
        ppv flows) ([], st.bank)
    let live := fv.1.filterMap id
    let newSamples :=
      live.flatMap (vertexSamples cfg.useShiftedPoints cfg.shiftValue)
    let newOffsets :=
      live.flatMap (fun _ => vertexOffsets cfg.useShiftedPoints cfg.shiftValue)
    if newSamples.isEmpty then
      { samples := [], offsets := [], bank := fv.2,
        tracked := st.tracked ++ [fv.1] }
    else
      { samples := newSamples, offsets := newOffsets, bank := fv.2,
        tracked := st.tracked ++ [fv.1] }

/-- The frame loop, driven by the number of remaining readable frames. -/
def trackLoop (model : KalmanModel κ) (flow : FlowOracle) (cfg : TrackConfig)
    (initialPoints : List Point) (ppv numWindows : ℕ) :
    ℕ → ℕ → TrackState κ → TrackState κ
  | 0, _, st => st
  | rem + 1, t, st =>
    trackLoop model flow cfg initialPoints ppv numWindows rem (t + 1)
      (trackStep model flow cfg initialPoints ppv numWindows t st)

/-- `track_points_with_consensus` (tracking.py lines 13-274).  The external
frame source is modelled by the number `F` of frames it can read: `F = 0`
models an unopenable video or a failed first read and yields `[]`
(lines 34-38); otherwise the trajectory starts with the initial points and
the frame loop runs `F - 1` times. -/
def track (model : KalmanModel κ) (flow : FlowOracle) (cfg : TrackConfig)
    (initialPoints : List Point) (F : ℕ) : List (List (Option Point)) :=
  if F = 0 then []
  else
    let ws := if cfg.windowSizes.isEmpty then [21] else cfg.windowSizes
    let ppv := if cfg.useShiftedPoints then 5 else 1
    let samples :=
      initialPoints.flatMap (vertexSamples cfg.useShiftedPoints cfg.shiftValue)
    let offsets :=
      initialPoints.flatMap (fun _ =>
        vertexOffsets cfg.useShiftedPoints cfg.shiftValue)
    let bank := samples.map model.init
    (trackLoop model flow cfg initialPoints ppv ws.length (F - 1) 1
      ⟨samples, offsets, bank, [initialPoints.map some]⟩).tracked

/-- A trivial Kalman model instance, usable to run the embedding on concrete
inputs. -/
def unitModel : KalmanModel Unit where
  init _ := ()
  predict _ := ((), (0, 0))
  correct _ _ := ()
  post _ := (0, 0)

/-- A flow oracle that reports every sample as not found, usable to run the
embedding on concrete inputs. -/
def noFlow : FlowOracle := fun _ _ pts => (pts, pts.map (fun _ => false))

/-- A flow oracle that reports every sample found at its previous position,
usable to run the embedding on concrete inputs. -/
def stillFlow : FlowOracle := fun _ _ pts => (pts, pts.map (fun _ => true))

/-- The source's default configuration (tracking.py lines 13-14, 44-45). -/
def defaultConfig : TrackConfig :=
  { useShiftedPoints := true, shiftValue := 5, windowSizes := [],
    filterMethod := "consensus" }

/-! ## Lemmas: the keyframe scan -/

theorem findKeyframes_all_le (frame : ℤ) :
    ∀ (l : List Keyframe) (acc : Option Keyframe),
      (∀ k ∈ l, k.frame ≤ frame) → l ≠ [] →
      findKeyframes frame l acc = (some (l.getLastD ⟨0, []⟩), none) := by
  intro l
  induction l with
  | nil => intro acc _ h; exact absurd rfl h
  | cons kf rest ih =>
    intro acc hle _
    have hkf : kf.frame ≤ frame := hle kf (List.mem_cons_self kf rest)
    rw [findKeyframes, if_pos hkf]
    cases rest with
    | nil => rw [findKeyframes]; rfl
    | cons b t =>
      rw [ih (some kf) (fun k hk => hle k (List.mem_cons_of_mem kf hk))
        (List.cons_ne_nil b t)]
      rfl

theorem findKeyframes_split (frame : ℤ) (p n : Keyframe) (l₂ : List Keyframe)
    (hp : p.frame ≤ frame) (hn : frame < n.frame) :
    ∀ (l₁ : List Keyframe) (acc : Option Keyframe),
      (∀ k ∈ l₁, k.frame ≤ frame) →
      findKeyframes frame (l₁ ++ p :: n :: l₂) acc = (some p, some n) := by
  intro l₁
  induction l₁ with
  | nil =>
    intro acc _
    rw [List.nil_append, findKeyframes, if_pos hp, findKeyframes,
      if_neg (not_le.mpr hn)]
  | cons a t ih =>
    intro acc hle
    rw [List.cons_append, findKeyframes,
      if_pos (hle a (List.mem_cons_self a t))]
    exact ih (some a) (fun k hk => hle k (List.mem_cons_of_mem a hk))

theorem findKeyframes_bounds (frame : ℤ) (a b : Keyframe) :
    ∀ (l : List Keyframe) (acc : Option Keyframe),
      (∀ x, acc = some x → x.frame ≤ frame) →
      findKeyframes frame l acc = (some a, some b) →
      a.frame ≤ frame ∧ frame < b.frame := by
  intro l
  induction l with
  | nil =>
    intro acc _ h
    rw [findKeyframes] at h
    exact absurd (congrArg Prod.snd h) (by simp)
  | cons kf rest ih =>
    intro acc hacc h
    rw [findKeyframes] at h
    by_cases hkf : kf.frame ≤ frame
    · rw [if_pos hkf] at h
      exact ih (some kf) (fun x hx => by cases hx; exact hkf) h
    · rw [if_neg hkf] at h
      have h1 : acc = some a := congrArg Prod.fst h
      have h2 : kf = b := Option.some.inj (congrArg Prod.snd h)
      exact ⟨hacc a h1, h2 ▸ not_le.mp hkf⟩

/-! ## Lemmas: sorted keyframe sequences -/

theorem frame_le_getLast_of_pairwise :
    ∀ (l : List Keyframe) (hl : l ≠ []),
      l.Pairwise (fun a b => a.frame ≤ b.frame) →
      ∀ k ∈ l, k.frame ≤ (l.getLast hl).frame := by
  intro l
  induction l with
  | nil => intro hl; exact absurd rfl hl
  | cons a t ih =>
    intro _ hs k hk
    cases t with
    | nil =>
      rw [List.getLast_singleton]
      rcases List.mem_cons.mp hk with h | h
      · exact le_of_eq (by rw [h])
      · exact absurd h (List.not_mem_nil k)
    | cons b t2 =>
      rw [List.getLast_cons (List.cons_ne_nil b t2)]
      rcases List.mem_cons.mp hk with h | h
      · subst h
        exact (List.pairwise_cons.mp hs).1 _
          (List.getLast_mem (List.cons_ne_nil b t2))
      · exact ih (List.cons_ne_nil b t2) (List.pairwise_cons.mp hs).2 k h

theorem getLastD_eq_getLast (l : List Keyframe) (hl : l ≠ []) (d : Keyframe) :
    l.getLastD d = l.getLast hl := by
  rw [List.getLastD_eq_getLast?, List.getLast?_eq_getLast l hl, Option.getD_some]

/-- C3: for a mask with a non-empty, frame-sorted keyframe sequence,
querying strictly before the first keyframe returns exactly the first
keyframe's points, and querying at or after the last keyframe returns
exactly the last keyframe's points. -/
theorem interpolation_clamps_outside_range (m : Mask) (frame : ℤ)
    (hne : m.keyframes ≠ [])
    (hsort : m.keyframes.Pairwise (fun a b => a.frame ≤ b.frame)) :
    (frame < (m.keyframes.head hne).frame →
      get_interpolated_points m frame = (m.keyframes.head hne).points) ∧
    ((m.keyframes.getLast hne).frame ≤ frame →
      get_interpolated_points m frame = (m.keyframes.getLast hne).points) := by
  obtain ⟨kfs⟩ := m
  simp only at hne hsort ⊢
  constructor
  · intro hlt
    cases kfs with
    | nil => exact absurd rfl hne
    | cons a t =>
      simp only [List.head_cons] at hlt ⊢
      simp only [get_interpolated_points, List.isEmpty_cons, if_neg Bool.false_ne_true]
      rw [findKeyframes, if_neg (not_le.mpr hlt)]
      rfl
  · intro hge
    have hall : ∀ k ∈ kfs, k.frame ≤ frame := fun k hk =>
      le_trans (frame_le_getLast_of_pairwise kfs hne hsort k hk) hge
    cases kfs with
    | nil => exact absurd rfl hne
    | cons a t =>
      simp only [get_interpolated_points, List.isEmpty_cons, if_neg Bool.false_ne_true]
      rw [findKeyframes_all_le frame (a :: t) none hall (List.cons_ne_nil a t)]
      show ((a :: t).getLastD ⟨0, []⟩).points = ((a :: t).getLast hne).points
      rw [getLastD_eq_getLast (a :: t) hne]

/-- Witness for C3 on the spec's concrete example: keyframes at frames 5 and
10; frame 0 yields the frame-5 points and frame 20 the frame-10 points. -/
theorem interpolation_clamps_outside_range_applied :
    get_interpolated_points ⟨[⟨5, [(1, 2)]⟩, ⟨10, [(3, 4)]⟩]⟩ 0 = [(1, 2)] ∧
    get_interpolated_points ⟨[⟨5, [(1, 2)]⟩, ⟨10, [(3, 4)]⟩]⟩ 20 = [(3, 4)] := by
  constructor
  · exact (interpolation_clamps_outside_range _ 0 (List.cons_ne_nil _ _)
      (by decide)).1 (by decide)
  · exact (interpolation_clamps_outside_range _ 20 (List.cons_ne_nil _ _)
      (by decide)).2 (by decide)

/-- C5: on two keyframes with equal frame numbers the interpolation core
returns `prev`'s points unmodified (the `total_frames == 0` guard), and the
keyframe scan can never select an equal-frame prev/next pair, so the
division computing the interpolation factor is unreachable in that case. -/
theorem interpolation_equal_frames_returns_prev (p n : Keyframe) (frame : ℤ)
    (h : n.frame = p.frame) :
    interpolateBetween p n frame = p.points ∧
    ∀ kfs : List Keyframe, findKeyframes frame kfs none ≠ (some p, some n) := by
  constructor
  · simp only [interpolateBetween]
    rw [if_pos (sub_eq_zero.mpr h)]
  · intro kfs hcontra
    have hb := findKeyframes_bounds frame p n kfs none
      (fun x hx => absurd hx (by simp)) hcontra
    rw [h] at hb
    omega

/-- Witness for C5 at a synthetic pair of keyframes sharing frame 3. -/
theorem interpolation_equal_frames_returns_prev_applied :
    interpolateBetween ⟨3, [(1, 2)]⟩ ⟨3, [(4, 5)]⟩ 7 = [(1, 2)] ∧
    ∀ kfs : List Keyframe,
      findKeyframes 7 kfs none ≠ (some ⟨3, [(1, 2)]⟩, some ⟨3, [(4, 5)]⟩) :=
  interpolation_equal_frames_returns_prev ⟨3, [(1, 2)]⟩ ⟨3, [(4, 5)]⟩ 7 rfl

/-- With sorted keyframes containing adjacent `p`, `n` and
`p.frame ≤ frame < n.frame`, the scan selects exactly `p`, `n` and the
result is the linear interpolation of the zipped vertex pairs. -/
theorem get_interpolated_points_between (m : Mask) (frame : ℤ)
    (l₁ l₂ : List Keyframe) (p n : Keyframe)
    (hsplit : m.keyframes = l₁ ++ p :: n :: l₂)
    (hsort : m.keyframes.Pairwise (fun a b => a.frame ≤ b.frame))
    (hp : p.frame ≤ frame) (hn : frame < n.frame) :
    get_interpolated_points m frame =
      (p.points.zip n.points).map (fun pq =>
        (pq.1.1 + (pq.2.1 - pq.1.1) *
          (((frame - p.frame : ℤ) : ℚ) / ((n.frame - p.frame : ℤ) : ℚ)),
         pq.1.2 + (pq.2.2 - pq.1.2) *
          (((frame - p.frame : ℤ) : ℚ) / ((n.frame - p.frame : ℤ) : ℚ)))) := by
  obtain ⟨kfs⟩ := m
  simp only at hsplit hsort ⊢
  subst hsplit
  have hl₁ : ∀ k ∈ l₁, k.frame ≤ frame := by
    intro k hk
    have := (List.pairwise_append.mp hsort).2.2 k hk p
      (List.mem_cons_self p (n :: l₂))
    exact le_trans this hp
  have hne : l₁ ++ p :: n :: l₂ ≠ [] :=
    List.append_ne_nil_of_right_ne_nil l₁ (List.cons_ne_nil p (n :: l₂))
  unfold get_interpolated_points
  rw [if_neg (fun hemp => hne (List.isEmpty_iff.mp hemp)),
    findKeyframes_split frame p n l₂ hp hn l₁ none hl₁]
  show interpolateBetween p n frame = _
  simp only [interpolateBetween]
  rw [if_neg (sub_ne_zero.mpr (ne_of_gt (lt_of_le_of_lt hp hn)))]

/-- C4: with sorted keyframes containing adjacent `p`, `n` of equal vertex
counts and `p.frame ≤ frame < n.frame`, interpolation returns, per vertex
and per axis, `prev + (next - prev) * factor` with
`factor = (frame - p.frame) / (n.frame - p.frame)`. -/
theorem interpolation_linear_between_keyframes (m : Mask) (frame : ℤ)
    (l₁ l₂ : List Keyframe) (p n : Keyframe)
    (hsplit : m.keyframes = l₁ ++ p :: n :: l₂)
    (hsort : m.keyframes.Pairwise (fun a b => a.frame ≤ b.frame))
    (hp : p.frame ≤ frame) (hn : frame < n.frame)
    (hcount : p.points.length = n.points.length) :
    get_interpolated_points m frame =
      (p.points.zip n.points).map (fun pq =>
        (pq.1.1 + (pq.2.1 - pq.1.1) *
          (((frame - p.frame : ℤ) : ℚ) / ((n.frame - p.frame : ℤ) : ℚ)),
         pq.1.2 + (pq.2.2 - pq.1.2) *
          (((frame - p.frame : ℤ) : ℚ) / ((n.frame - p.frame : ℤ) : ℚ)))) :=
  get_interpolated_points_between m frame l₁ l₂ p n hsplit hsort hp hn

/-- Witness for C4 on the spec's concrete example: keyframes
frame 0 = [(0,0)] and frame 10 = [(10,20)], queried at frame 5, give
exactly [(5, 10)]. -/
theorem interpolation_linear_between_keyframes_applied :
    get_interpolated_points ⟨[⟨0, [(0, 0)]⟩, ⟨10, [(10, 20)]⟩]⟩ 5 =
      [(5, 10)] := by
  rw [interpolation_linear_between_keyframes ⟨[⟨0, [(0, 0)]⟩, ⟨10, [(10, 20)]⟩]⟩
    5 [] [] ⟨0, [(0, 0)]⟩ ⟨10, [(10, 20)]⟩ rfl (by decide) (by decide)
    (by decide) rfl]
  norm_num

/-- C10: with sorted keyframes containing adjacent `p`, `n` of different
vertex counts and a target strictly between their frames, interpolation
still returns a value: a list of length the minimum of the two vertex
counts, pairing vertices by index and dropping the excess. -/
theorem interpolation_mismatched_lengths_min (m : Mask) (frame : ℤ)
    (l₁ l₂ : List Keyframe) (p n : Keyframe)
    (hsplit : m.keyframes = l₁ ++ p :: n :: l₂)
    (hsort : m.keyframes.Pairwise (fun a b => a.frame ≤ b.frame))
    (hcount : p.points.length ≠ n.points.length)
    (hp : p.frame < frame) (hn : frame < n.frame) :
    (get_interpolated_points m frame).length =
      min p.points.length n.points.length := by
  rw [get_interpolated_points_between m frame l₁ l₂ p n hsplit hsort
    (le_of_lt hp) hn]
  rw [List.length_map, List.length_zip]

/-- Witness for C10: adjacent keyframes with 2 and 1 vertices queried
between them yield a list of length 1. -/
theorem interpolation_mismatched_lengths_min_applied :
    (get_interpolated_points
      ⟨[⟨0, [(0, 0), (2, 2)]⟩, ⟨10, [(10, 20)]⟩]⟩ 5).length = 1 := by
  rw [interpolation_mismatched_lengths_min
    ⟨[⟨0, [(0, 0), (2, 2)]⟩, ⟨10, [(10, 20)]⟩]⟩ 5 [] []
    ⟨0, [(0, 0), (2, 2)]⟩ ⟨10, [(10, 20)]⟩ rfl (by decide) (by decide)
    (by decide) (by decide)]
  decide

theorem interpolateBetween_getD (p n : Keyframe) (frame : ℤ) (i : ℕ)
    (hi : i < p.points.length) (hi2 : i < n.points.length)
    (hne : n.frame - p.frame ≠ 0) :
    (interpolateBetween p n frame).getD i (0, 0) =
      ((p.points.getD i (0, 0)).1 +
        ((n.points.getD i (0, 0)).1 - (p.points.getD i (0, 0)).1) *
        (((frame - p.frame : ℤ) : ℚ) / ((n.frame - p.frame : ℤ) : ℚ)),
       (p.points.getD i (0, 0)).2 +
        ((n.points.getD i (0, 0)).2 - (p.points.getD i (0, 0)).2) *
        (((frame - p.frame : ℤ) : ℚ) / ((n.frame - p.frame : ℤ) : ℚ))) := by
  simp only [interpolateBetween]
  rw [if_neg hne]
  have hz : i < (p.points.zip n.points).length := by
    rw [List.length_zip]; exact lt_min hi hi2
  rw [List.getD_eq_getElem _ _ (by rw [List.length_map]; exact hz),
    List.getElem_map, List.getElem_zip,
    List.getD_eq_getElem _ _ hi, List.getD_eq_getElem _ _ hi2]

theorem lerp_le_lerp (a b c₁ c₂ D : ℚ) (hab : a ≤ b) (hc : c₁ ≤ c₂)
    (hD : 0 < D) :
    a + (b - a) * (c₁ / D) ≤ a + (b - a) * (c₂ / D) := by
  have h1 : c₁ / D ≤ c₂ / D := (div_le_div_iff_of_pos_right hD).mpr hc
  have h2 := mul_le_mul_of_nonneg_left h1 (sub_nonneg.mpr hab)
  linarith

theorem lerp_le_lerp_rev (a b c₁ c₂ D : ℚ) (hab : b ≤ a) (hc : c₁ ≤ c₂)
    (hD : 0 < D) :
    a + (b - a) * (c₂ / D) ≤ a + (b - a) * (c₁ / D) := by
  have h1 : c₁ / D ≤ c₂ / D := (div_le_div_iff_of_pos_right hD).mpr hc
  have h2 := mul_le_mul_of_nonpos_left h1 (sub_nonpos.mpr hab)
  linarith

/-- C8: for fixed adjacent keyframes with `p.frame < n.frame` and a fixed
vertex, each interpolated coordinate is monotone in the target frame on
`[p.frame, n.frame]`: non-decreasing when the `next` coordinate is at least
the `prev` coordinate, non-increasing otherwise, on each axis. -/
theorem interpolation_monotone_in_frame (p n : Keyframe) (i : ℕ)
    (hf : p.frame < n.frame)
    (hi : i < p.points.length) (hi2 : i < n.points.length)
    (t₁ t₂ : ℤ) (h1 : p.frame ≤ t₁) (h12 : t₁ ≤ t₂) (h2 : t₂ ≤ n.frame) :
    (((p.points.getD i (0, 0)).1 ≤ (n.points.getD i (0, 0)).1 →
        ((interpolateBetween p n t₁).getD i (0, 0)).1 ≤
          ((interpolateBetween p n t₂).getD i (0, 0)).1) ∧
      ((n.points.getD i (0, 0)).1 ≤ (p.points.getD i (0, 0)).1 →
        ((interpolateBetween p n t₂).getD i (0, 0)).1 ≤
          ((interpolateBetween p n t₁).getD i (0, 0)).1)) ∧
    (((p.points.getD i (0, 0)).2 ≤ (n.points.getD i (0, 0)).2 →
        ((interpolateBetween p n t₁).getD i (0, 0)).2 ≤
          ((interpolateBetween p n t₂).getD i (0, 0)).2) ∧
      ((n.points.getD i (0, 0)).2 ≤ (p.points.getD i (0, 0)).2 →
        ((interpolateBetween p n t₂).getD i (0, 0)).2 ≤
          ((interpolateBetween p n t₁).getD i (0, 0)).2)) := by
  have hne : n.frame - p.frame ≠ 0 := sub_ne_zero.mpr (ne_of_gt hf)
  rw [interpolateBetween_getD p n t₁ i hi hi2 hne,
    interpolateBetween_getD p n t₂ i hi hi2 hne]
  have hc : ((t₁ - p.frame : ℤ) : ℚ) ≤ ((t₂ - p.frame : ℤ) : ℚ) :=
    Int.cast_le.mpr (by omega)
  have hD : (0 : ℚ) < ((n.frame - p.frame : ℤ) : ℚ) :=
    Int.cast_pos.mpr (by omega)
  exact ⟨⟨fun hab => lerp_le_lerp _ _ _ _ _ hab hc hD,
      fun hab => lerp_le_lerp_rev _ _ _ _ _ hab hc hD⟩,
    ⟨fun hab => lerp_le_lerp _ _ _ _ _ hab hc hD,
      fun hab => lerp_le_lerp_rev _ _ _ _ _ hab hc hD⟩⟩

/-- Witness for C8 at keyframes frame 0 = [(0,100)], frame 10 = [(10,0)] and
target frames 2 ≤ 7. -/
theorem interpolation_monotone_in_frame_applied :
    (((0 : ℚ) ≤ 10 →
        ((interpolateBetween ⟨0, [(0, 100)]⟩ ⟨10, [(10, 0)]⟩ 2).getD 0 (0, 0)).1 ≤
          ((interpolateBetween ⟨0, [(0, 100)]⟩ ⟨10, [(10, 0)]⟩ 7).getD 0 (0, 0)).1) ∧
      ((10 : ℚ) ≤ 0 →
        ((interpolateBetween ⟨0, [(0, 100)]⟩ ⟨10, [(10, 0)]⟩ 7).getD 0 (0, 0)).1 ≤
          ((interpolateBetween ⟨0, [(0, 100)]⟩ ⟨10, [(10, 0)]⟩ 2).getD 0 (0, 0)).1)) ∧
    (((100 : ℚ) ≤ 0 →
        ((interpolateBetween ⟨0, [(0, 100)]⟩ ⟨10, [(10, 0)]⟩ 2).getD 0 (0, 0)).2 ≤
          ((interpolateBetween ⟨0, [(0, 100)]⟩ ⟨10, [(10, 0)]⟩ 7).getD 0 (0, 0)).2) ∧
      ((0 : ℚ) ≤ 100 →
        ((interpolateBetween ⟨0, [(0, 100)]⟩ ⟨10, [(10, 0)]⟩ 7).getD 0 (0, 0)).2 ≤
          ((interpolateBetween ⟨0, [(0, 100)]⟩ ⟨10, [(10, 0)]⟩ 2).getD 0 (0, 0)).2)) :=
  interpolation_monotone_in_frame ⟨0, [(0, 100)]⟩ ⟨10, [(10, 0)]⟩ 0
    (by decide) (by decide) (by decide) 2 7 (by decide) (by decide) (by decide)

/-! ## Lemmas: shift equivariance of the median -/

theorem insertSorted_map_sub (c x : ℚ) :
    ∀ l : List ℚ, insertSorted (x - c) (l.map (fun y => y - c)) =
      (insertSorted x l).map (fun y => y - c) := by
  intro l
  induction l with
  | nil => rfl
  | cons y ys ih =>
    simp only [List.map_cons, insertSorted]
    by_cases h : x ≤ y
    · rw [if_pos (by linarith), if_pos h, List.map_cons, List.map_cons]
    · rw [if_neg (fun hc => h (by linarith)), if_neg h, List.map_cons, ih]

theorem length_insertSorted (x : ℚ) :
    ∀ l : List ℚ, (insertSorted x l).length = l.length + 1 := by
  intro l
  induction l with
  | nil => rfl
  | cons y ys ih =>
    simp only [insertSorted]
    by_cases h : x ≤ y
    · rw [if_pos h]; rfl
    · rw [if_neg h, List.length_cons, List.length_cons, ih]

theorem length_insertionSort :
    ∀ l : List ℚ, (insertionSort l).length = l.length := by
  intro l
  induction l with
  | nil => rfl
  | cons x xs ih =>
    simp only [insertionSort]
    rw [length_insertSorted, ih, List.length_cons]

theorem insertionSort_map_sub (c : ℚ) :
    ∀ l : List ℚ, insertionSort (l.map (fun y => y - c)) =
      (insertionSort l).map (fun y => y - c) := by
  intro l
  induction l with
  | nil => rfl
  | cons x xs ih =>
    simp only [List.map_cons, insertionSort]
    rw [ih, insertSorted_map_sub]

theorem getD_map_sub (c : ℚ) :
    ∀ (l : List ℚ) (i : ℕ), i < l.length →
      (l.map (fun y => y - c)).getD i 0 = l.getD i 0 - c := by
  intro l
  induction l with
  | nil => intro i hi; exact absurd hi (by simp)
  | cons a t ih =>
    intro i hi
    cases i with
    | zero => simp
    | succ k =>
      simp only [List.map_cons, List.getD_cons_succ]
      exact ih k (by simp only [List.length_cons] at hi; omega)

theorem npMedian_map_sub (c : ℚ) (l : List ℚ) (hl : l ≠ []) :
    npMedian (l.map (fun y => y - c)) = npMedian l - c := by
  have hpos : 0 < (insertionSort l).length := by
    rw [length_insertionSort]; exact List.length_pos.mpr hl
  simp only [npMedian, insertionSort_map_sub, List.length_map]
  by_cases h : (insertionSort l).length % 2 = 1
  · rw [if_pos h, if_pos h,
      getD_map_sub c (insertionSort l) _ (Nat.div_lt_self hpos (by omega))]
  · rw [if_neg h, if_neg h,
      getD_map_sub c (insertionSort l) _ (by omega),
      getD_map_sub c (insertionSort l) _ (Nat.div_lt_self hpos (by omega))]
    ring

/-! ## Lemmas: the consensus filter is independent of its reference point -/

theorem map_zip_self (f : Point → Point) :
    ∀ l : List Point, (l.map f).zip l = l.map (fun a => (f a, a)) := by
  intro l
  induction l with
  | nil => rfl
  | cons a t ih => simp only [List.map_cons, List.zip_cons_cons, ih]

/-- The consensus filter written without its reference point: the kept set
and the result depend only on the pooled positions themselves. -/
theorem consensusFilter_eq (r : Point) (ps : List Point) (hps : ps ≠ []) :
    consensusFilter r ps =
      (let m1 := npMedian (ps.map Prod.fst)
       let m2 := npMedian (ps.map Prod.snd)
       let cs := ps.filterMap (fun p =>
         if |p.1 - m1| < 10 ∧ |p.2 - m2| < 10 then some p else none)
       if cs.isEmpty then (m1, m2)
       else ((cs.map Prod.fst).sum / cs.length,
             (cs.map Prod.snd).sum / cs.length)) := by
  have hne1 : ps.map Prod.fst ≠ [] := by simpa using hps
  have hne2 : ps.map Prod.snd ≠ [] := by simpa using hps
  have hx : (ps.map (fun p : Point => (p.1 - r.1, p.2 - r.2))).map Prod.fst =
      (ps.map Prod.fst).map (fun y => y - r.1) := by
    rw [List.map_map, List.map_map]; rfl
  have hy : (ps.map (fun p : Point => (p.1 - r.1, p.2 - r.2))).map Prod.snd =
      (ps.map Prod.snd).map (fun y => y - r.2) := by
    rw [List.map_map, List.map_map]; rfl
  simp only [consensusFilter, hx, hy, npMedian_map_sub _ _ hne1,
    npMedian_map_sub _ _ hne2, map_zip_self, List.filterMap_map]
  rw [List.filterMap_congr (g := fun p : Point =>
    if |p.1 - npMedian (ps.map Prod.fst)| < 10 ∧
       |p.2 - npMedian (ps.map Prod.snd)| < 10 then some p else none)
    (fun a _ => by simp only [Function.comp_apply, sub_sub_sub_cancel_right])]
  apply if_congr Iff.rfl _ rfl
  rw [add_sub_cancel, add_sub_cancel]

/-- C1: the per-vertex consensus step is independent of the reference point
the displacements are measured from.  The source measures displacements from
`initial_points[i]` (tracking.py line 181) while the spec describes them as
measured from the vertex's frame-t position; because the per-axis median is
shift-equivariant, the kept (consensus) set, the averaged result and the
no-survivor fallback (reference + median displacement) coincide for any two
reference points, so the spec's description computes exactly the code's
value.  The second conjunct checks the spec's outlier scenario: of 5 pooled
estimates with 4 clustered within 2 px and 1 displaced by 50 px, the
consensus filter (10 px threshold around the median) averages exactly the 4
clustered estimates, excluding the 50 px outlier. -/
theorem consensus_reference_free_rejects_outlier :
    (∀ (r₁ r₂ : Point) (ps : List Point), 3 ≤ ps.length →
      consensusFilter r₁ ps = consensusFilter r₂ ps) ∧
    consensusFilter (0, 0) [(0, 0), (1, 0), (0, 1), (1, 1), (50, 50)] =
      (1 / 2, 1 / 2) := by
  constructor
  · intro r₁ r₂ ps hlen
    have hne : ps ≠ [] := by
      intro h
      rw [h] at hlen
      exact absurd hlen (by simp)
    rw [consensusFilter_eq r₁ ps hne, consensusFilter_eq r₂ ps hne]
  · norm_num [consensusFilter, npMedian, insertionSort, insertSorted,
      abs_sub_lt_iff, List.filterMap_cons]

/-- Witness for C1: with the same three pooled estimates, the consensus step
computed from reference (0, 0) (the code's frame-0 position) and from
reference (7, 9) (a stand-in frame-t position) agree. -/
theorem consensus_reference_free_rejects_outlier_applied :
    consensusFilter (0, 0) [(0, 0), (1, 0), (0, 1)] =
      consensusFilter (7, 9) [(0, 0), (1, 0), (0, 1)] :=
  consensus_reference_free_rejects_outlier.1 (0, 0) (7, 9)
    [(0, 0), (1, 0), (0, 1)] (by decide)

/-! ## Lemmas: the tracking loop -/

theorem processSample_bank_length (model : KalmanModel κ)
    (nextPts : List Point) (status : List Bool) (offsets : List Point)
    (acc : List Point × List κ) (j : ℕ) :
    (processSample model nextPts status offsets acc j).2.length =
      acc.2.length := by
  simp only [processSample]
  by_cases h : j < status.length ∧ status.getD j false = true
  · rw [if_pos h]
    cases hkf : acc.2.get? j with
    | some kf => simp
    | none => rfl
  · rw [if_neg h]

theorem foldl_processSample_bank_length (model : KalmanModel κ)
    (nextPts : List Point) (status : List Bool) (offsets : List Point) :
    ∀ (l : List ℕ) (acc : List Point × List κ),
      ((l.foldl (processSample model nextPts status offsets) acc).2).length =
        acc.2.length := by
  intro l
  induction l with
  | nil => intro acc; rfl
  | cons j t ih =>
    intro acc
    rw [List.foldl_cons, ih, processSample_bank_length]

theorem collectVertex_bank_length (model : KalmanModel κ)
    (offsets : List Point) (ppv i : ℕ) :
    ∀ (flows : List (List Point × List Bool)) (bank : List κ),
      (collectVertex model offsets ppv i flows bank).2.length = bank.length := by
  have main : ∀ (flows : List (List Point × List Bool))
      (acc : List Point × List κ),
      ((flows.foldl (fun acc fw =>
        (List.range' (i * ppv) (min (i * ppv + ppv) fw.1.length - i * ppv)).foldl
          (processSample model fw.1 fw.2 offsets) acc) acc).2).length =
        acc.2.length := by
    intro flows
    induction flows with
    | nil => intro acc; rfl
    | cons fw t ih =>
      intro acc
      rw [List.foldl_cons, ih, foldl_processSample_bank_length]
  intro flows bank
  exact main flows ([], bank)

theorem filterVertex_bank_length (model : KalmanModel κ) (fm : String)
    (ips : List Point) (tr : List (List (Option Point))) (ppv i : ℕ)
    (positions : List Point) (bank : List κ) :
    (filterVertex model fm ips tr ppv i positions bank).2.length =
      bank.length := by
  simp only [filterVertex]
  by_cases h : positions.isEmpty
  · rw [if_pos h]
    cases hkf : bank.get? (i * ppv) with
    | some kf => simp
    | none =>
      by_cases h2 : 0 < tr.length ∧ i < (tr.getLastD []).length
      · rw [if_pos h2]
      · rw [if_neg h2]
  · rw [if_neg h]
    by_cases h2 : fm = "consensus" ∧ 3 ≤ positions.length
    · rw [if_pos h2]
    · rw [if_neg h2]

theorem vertexStep_bank_length (model : KalmanModel κ) (fm : String)
    (ips : List Point) (tr : List (List (Option Point)))
    (offs : List Point) (ppv : ℕ) (flows : List (List Point × List Bool))
    (acc : List (Option Point) × List κ) (i : ℕ) :
    (vertexStep model fm ips tr offs ppv flows acc i).2.length =
      acc.2.length := by
  simp only [vertexStep]
  rw [filterVertex_bank_length, collectVertex_bank_length]

theorem foldl_vertexStep_bank_length (model : KalmanModel κ) (fm : String)
    (ips : List Point) (tr : List (List (Option Point)))
    (offs : List Point) (ppv : ℕ) (flows : List (List Point × List Bool)) :
    ∀ (l : List ℕ) (acc : List (Option Point) × List κ),
      ((l.foldl (vertexStep model fm ips tr offs ppv flows) acc).2).length =
        acc.2.length := by
  intro l
  induction l with
  | nil => intro acc; rfl
  | cons i t ih =>
    intro acc
    rw [List.foldl_cons, ih, vertexStep_bank_length]

theorem foldl_vertexStep_fst_length (model : KalmanModel κ) (fm : String)
    (ips : List Point) (tr : List (List (Option Point)))
    (offs : List Point) (ppv : ℕ) (flows : List (List Point × List Bool)) :
    ∀ (l : List ℕ) (acc : List (Option Point) × List κ),
      ((l.foldl (vertexStep model fm ips tr offs ppv flows) acc).1).length =
        acc.1.length + l.length := by
  intro l
  induction l with
  | nil => intro acc; simp
  | cons i t ih =>
    intro acc
    rw [List.foldl_cons, ih]
    simp only [vertexStep, List.length_append, List.length_cons,
      List.length_nil, List.length_cons]
    omega

theorem filterVertex_isSome (model : KalmanModel κ) (fm : String)
    (ips : List Point) (tr : List (List (Option Point))) (ppv i : ℕ)
    (positions : List Point) (bank : List κ)
    (h : i * ppv < bank.length) :
    (filterVertex model fm ips tr ppv i positions bank).1 ≠ none := by
  simp only [filterVertex]
  by_cases hp : positions.isEmpty
  · rw [if_pos hp]
    rw [List.get?_eq_get h]
    simp
  · rw [if_neg hp]
    by_cases h2 : fm = "consensus" ∧ 3 ≤ positions.length
    · rw [if_pos h2]; simp
    · rw [if_neg h2]; simp

theorem foldl_vertexStep_all_some (model : KalmanModel κ) (fm : String)
    (ips : List Point) (tr : List (List (Option Point)))
    (offs : List Point) (ppv : ℕ) (flows : List (List Point × List Bool)) :
    ∀ (l : List ℕ) (acc : List (Option Point) × List κ),
      (∀ i ∈ l, i * ppv < acc.2.length) →
      (∀ v ∈ acc.1, v ≠ none) →
      ∀ v ∈ (l.foldl (vertexStep model fm ips tr offs ppv flows) acc).1,
        v ≠ none := by
  intro l
  induction l with
  | nil => intro acc _ hsome; exact hsome
  | cons i t ih =>
    intro acc hidx hsome
    rw [List.foldl_cons]
    apply ih
    · intro i2 hi2
      rw [vertexStep_bank_length]
      exact hidx i2 (List.mem_cons_of_mem i hi2)
    · intro v hv
      simp only [vertexStep, List.mem_append, List.mem_singleton] at hv
      rcases hv with hv | hv
      · exact hsome v hv
      · subst hv
        apply filterVertex_isSome
        rw [collectVertex_bank_length]
        exact hidx i (List.mem_cons_self i t)

theorem trackStep_tracked (model : KalmanModel κ) (flow : FlowOracle)
    (cfg : TrackConfig) (ips : List Point) (ppv nw t : ℕ)
    (st : TrackState κ) :
    ∃ e, (trackStep model flow cfg ips ppv nw t st).tracked =
        st.tracked ++ [e] ∧ e.length = ips.length := by
  simp only [trackStep]
  by_cases h : st.samples.isEmpty
  · rw [if_pos h]
    exact ⟨_, rfl, List.length_replicate _ _⟩
  · rw [if_neg h]
    split
    · refine ⟨_, rfl, ?_⟩
      rw [foldl_vertexStep_fst_length, List.length_range]
      simp
    · refine ⟨_, rfl, ?_⟩
      rw [foldl_vertexStep_fst_length, List.length_range]
      simp

theorem filterMap_id_ne_nil (l : List (Option Point)) (hl : l ≠ [])
    (hsome : ∀ v ∈ l, v ≠ none) : l.filterMap id ≠ [] := by
  cases l with
  | nil => exact absurd rfl hl
  | cons a t =>
    cases a with
    | none => exact absurd rfl (hsome none (List.mem_cons_self none t))
    | some b => simp [List.filterMap_cons]

theorem flatMap_vertexSamples_ne_nil (u : Bool) (s : ℚ) (l : List Point)
    (hl : l ≠ []) : l.flatMap (vertexSamples u s) ≠ [] := by
  cases l with
  | nil => exact absurd rfl hl
  | cons a t => simp [List.flatMap_cons, vertexSamples]

theorem length_flatMap_vertexSamples (u : Bool) (s : ℚ) :
    ∀ l : List Point, (l.flatMap (vertexSamples u s)).length =
      l.length * (if u then 5 else 1) := by
  intro l
  induction l with
  | nil => simp
  | cons a t ih =>
    rw [List.flatMap_cons, List.length_append, ih]
    have hv : (vertexSamples u s a).length = if u then 5 else 1 := by
      cases u <;> rfl
    rw [hv, List.length_cons]
    cases u <;> simp <;> ring

/-- When the state satisfies the run invariant (non-empty sample set, bank of
one filter per initial sample), one frame step appends one entry of non-lost
positions and preserves the invariant. -/
theorem trackStep_invariant (model : KalmanModel κ) (flow : FlowOracle)
    (cfg : TrackConfig) (ips : List Point) (ppv nw t : ℕ)
    (st : TrackState κ) (hppv : 0 < ppv) (hN : ips ≠ [])
    (hsamp : st.samples ≠ [])
    (hbank : st.bank.length = ips.length * ppv) :
    (trackStep model flow cfg ips ppv nw t st).samples ≠ [] ∧
    (trackStep model flow cfg ips ppv nw t st).bank.length =
      ips.length * ppv ∧
    ∃ e, (trackStep model flow cfg ips ppv nw t st).tracked =
      st.tracked ++ [e] ∧ e.length = ips.length ∧ ∀ v ∈ e, v ≠ none := by
  simp only [trackStep]
  rw [if_neg (fun hemp => hsamp (List.isEmpty_iff.mp hemp))]
  have hlen : ∀ flows, ((List.range ips.length).foldl
      (vertexStep model cfg.filterMethod ips st.tracked st.offsets ppv flows)
      ([], st.bank)).1.length = ips.length := by
    intro flows
    rw [foldl_vertexStep_fst_length, List.length_range]
    simp
  have hall : ∀ flows, ∀ v ∈ ((List.range ips.length).foldl
      (vertexStep model cfg.filterMethod ips st.tracked st.offsets ppv flows)
      ([], st.bank)).1, v ≠ none := by
    intro flows
    apply foldl_vertexStep_all_some
    · intro i hi
      show i * ppv < st.bank.length
      rw [hbank]
      exact (mul_lt_mul_right hppv).mpr (List.mem_range.mp hi)
    · intro v hv
      exact absurd hv (List.not_mem_nil v)
  have hbank2 : ∀ flows, ((List.range ips.length).foldl
      (vertexStep model cfg.filterMethod ips st.tracked st.offsets ppv flows)
      ([], st.bank)).2.length = ips.length * ppv := by
    intro flows
    rw [foldl_vertexStep_bank_length]
    exact hbank
  have hnew : ∀ flows, (((List.range ips.length).foldl
      (vertexStep model cfg.filterMethod ips st.tracked st.offsets ppv flows)
      ([], st.bank)).1.filterMap id).flatMap
        (vertexSamples cfg.useShiftedPoints cfg.shiftValue) ≠ [] := by
    intro flows
    apply flatMap_vertexSamples_ne_nil
    apply filterMap_id_ne_nil _ _ (hall flows)
    intro hcon
    have hl := hlen flows
    rw [hcon] at hl
    exact hN (List.eq_nil_of_length_eq_zero (by simpa using hl.symm))
  rw [if_neg (fun hemp => hnew _ (List.isEmpty_iff.mp hemp))]
  exact ⟨hnew _, hbank2 _, _, rfl, hlen _, hall _⟩

theorem head_append_left {α : Type} (l l2 : List α) (hl : l ≠ []) :
    (l ++ l2).head? = l.head? := by
  cases l with
  | nil => exact absurd rfl hl
  | cons a t => rfl

theorem getD_mem {α : Type} (l : List α) (i : ℕ) (d : α) (h : i < l.length) :
    l.getD i d ∈ l := by
  rw [List.getD_eq_getElem l d h]
  exact List.getElem_mem h

theorem trackLoop_shape (model : KalmanModel κ) (flow : FlowOracle)
    (cfg : TrackConfig) (ips : List Point) (ppv nw : ℕ) :
    ∀ (rem t : ℕ) (st : TrackState κ),
      (trackLoop model flow cfg ips ppv nw rem t st).tracked.length =
        st.tracked.length + rem ∧
      (st.tracked ≠ [] →
        (trackLoop model flow cfg ips ppv nw rem t st).tracked.head? =
          st.tracked.head?) ∧
      (∀ e ∈ (trackLoop model flow cfg ips ppv nw rem t st).tracked,
        e ∈ st.tracked ∨ e.length = ips.length) := by
  intro rem
  induction rem with
  | zero =>
    intro t st
    exact ⟨rfl, fun _ => rfl, fun e he => Or.inl he⟩
  | succ k ih =>
    intro t st
    rw [trackLoop]
    obtain ⟨e, hts, hlen⟩ := trackStep_tracked model flow cfg ips ppv nw t st
    obtain ⟨ih1, ih2, ih3⟩ :=
      ih (t + 1) (trackStep model flow cfg ips ppv nw t st)
    refine ⟨?_, ?_, ?_⟩
    · rw [ih1, hts, List.length_append]
      simp only [List.length_singleton]
      omega
    · intro hne
      rw [ih2 (by
          rw [hts]
          exact List.append_ne_nil_of_right_ne_nil _ (List.cons_ne_nil _ _)),
        hts, head_append_left _ _ hne]
    · intro e2 he2
      rcases ih3 e2 he2 with h | h
      · rw [hts] at h
        rcases List.mem_append.mp h with h2 | h2
        · exact Or.inl h2
        · exact Or.inr (List.mem_singleton.mp h2 ▸ hlen)
      · exact Or.inr h

theorem trackLoop_all_some (model : KalmanModel κ) (flow : FlowOracle)
    (cfg : TrackConfig) (ips : List Point) (ppv nw : ℕ)
    (hppv : 0 < ppv) (hN : ips ≠ []) :
    ∀ (rem t : ℕ) (st : TrackState κ),
      st.samples ≠ [] → st.bank.length = ips.length * ppv →
      ∀ e ∈ (trackLoop model flow cfg ips ppv nw rem t st).tracked,
        e ∈ st.tracked ∨ (e.length = ips.length ∧ ∀ v ∈ e, v ≠ none) := by
  intro rem
  induction rem with
  | zero => intro t st _ _ e he; exact Or.inl he
  | succ k ih =>
    intro t st hsamp hbank
    rw [trackLoop]
    obtain ⟨hs2, hb2, e, hts, hlen, hall⟩ :=
      trackStep_invariant model flow cfg ips ppv nw t st hppv hN hsamp hbank
    intro e2 he2
    rcases ih (t + 1) _ hs2 hb2 e2 he2 with h | h
    · rw [hts] at h
      rcases List.mem_append.mp h with h2 | h2
      · exact Or.inl h2
      · exact Or.inr (List.mem_singleton.mp h2 ▸ ⟨hlen, hall⟩)
    · exact Or.inr h

theorem track_unfold (model : KalmanModel κ) (flow : FlowOracle)
    (cfg : TrackConfig) (ips : List Point) (F : ℕ) (hF : F ≠ 0) :
    track model flow cfg ips F =
      (trackLoop model flow cfg ips
        (if cfg.useShiftedPoints then 5 else 1)
        (if cfg.windowSizes.isEmpty then [21] else cfg.windowSizes).length
        (F - 1) 1
        ⟨ips.flatMap (vertexSamples cfg.useShiftedPoints cfg.shiftValue),
         ips.flatMap (fun _ =>
           vertexOffsets cfg.useShiftedPoints cfg.shiftValue),
         (ips.flatMap (vertexSamples cfg.useShiftedPoints cfg.shiftValue)).map
           model.init,
         [ips.map some]⟩).tracked := by
  simp only [track]
  rw [if_neg hF]

theorem track_shape (model : KalmanModel κ) (flow : FlowOracle)
    (cfg : TrackConfig) (ips : List Point) (F : ℕ) (hF : F ≠ 0) :
    (track model flow cfg ips F).length = F ∧
    (track model flow cfg ips F).head? = some (ips.map some) ∧
    ∀ e ∈ track model flow cfg ips F, e.length = ips.length := by
  rw [track_unfold model flow cfg ips F hF]
  obtain ⟨h1, h2, h3⟩ := trackLoop_shape model flow cfg ips
    (if cfg.useShiftedPoints then 5 else 1)
    (if cfg.windowSizes.isEmpty then [21] else cfg.windowSizes).length
    (F - 1) 1
    ⟨ips.flatMap (vertexSamples cfg.useShiftedPoints cfg.shiftValue),
     ips.flatMap (fun _ => vertexOffsets cfg.useShiftedPoints cfg.shiftValue),
     (ips.flatMap (vertexSamples cfg.useShiftedPoints cfg.shiftValue)).map
       model.init,
     [ips.map some]⟩
  refine ⟨?_, ?_, ?_⟩
  · rw [h1]
    simp only [List.length_singleton]
    omega
  · rw [h2 (List.cons_ne_nil _ _)]
    rfl
  · intro e he
    rcases h3 e he with h | h
    · rw [List.mem_singleton.mp h, List.length_map]
    · exact h

theorem track_all_some (model : KalmanModel κ) (flow : FlowOracle)
    (cfg : TrackConfig) (ips : List Point) (F : ℕ) (hips : ips ≠ []) :
    ∀ e ∈ track model flow cfg ips F, ∀ v ∈ e, v ≠ none := by
  by_cases hF : F = 0
  · subst hF
    intro e he
    exact absurd he (by simp [track])
  · rw [track_unfold model flow cfg ips F hF]
    intro e he v hv
    have hppv : 0 < if cfg.useShiftedPoints then 5 else 1 := by
      split <;> omega
    rcases trackLoop_all_some model flow cfg ips
      (if cfg.useShiftedPoints then 5 else 1)
      (if cfg.windowSizes.isEmpty then [21] else cfg.windowSizes).length
      hppv hips (F - 1) 1
      ⟨ips.flatMap (vertexSamples cfg.useShiftedPoints cfg.shiftValue),
       ips.flatMap (fun _ => vertexOffsets cfg.useShiftedPoints cfg.shiftValue),
       (ips.flatMap (vertexSamples cfg.useShiftedPoints cfg.shiftValue)).map
         model.init,
       [ips.map some]⟩
      (flatMap_vertexSamples_ne_nil _ _ _ hips)
      (by
        show ((ips.flatMap
          (vertexSamples cfg.useShiftedPoints cfg.shiftValue)).map
            model.init).length = _
        rw [List.length_map, length_flatMap_vertexSamples])
      e he with h | h
    · rw [List.mem_singleton.mp h] at hv
      obtain ⟨p, _, hp⟩ := List.mem_map.mp hv
      rw [← hp]
      simp
    · exact h.2 v hv

/-- C2: for every frame source with `F ≥ 1` readable frames and every
non-empty initial point list, the trajectory has length exactly `F`, its
entry at index 0 is the initial points, and every entry is a list of exactly
`N` optional coordinates, for any Kalman model and flow oracle. -/
theorem track_trajectory_shape (model : KalmanModel κ) (flow : FlowOracle)
    (cfg : TrackConfig) (ips : List Point) (F : ℕ)
    (hF : 1 ≤ F) (hips : ips ≠ []) :
    (track model flow cfg ips F).length = F ∧
    (track model flow cfg ips F).head? = some (ips.map some) ∧
    ∀ e ∈ track model flow cfg ips F, e.length = ips.length :=
  track_shape model flow cfg ips F (by omega)

/-- Witness for C2: a 1-point, 3-frame run. -/
theorem track_trajectory_shape_applied :
    (track unitModel noFlow defaultConfig [(1, 2)] 3).length = 3 ∧
    (track unitModel noFlow defaultConfig [(1, 2)] 3).head? =
      some [some (1, 2)] ∧
    ∀ e ∈ track unitModel noFlow defaultConfig [(1, 2)] 3,
      e.length = [((1 : ℚ), (2 : ℚ))].length :=
  track_trajectory_shape unitModel noFlow defaultConfig [(1, 2)] 3
    (by omega) (List.cons_ne_nil _ _)

/-- C7: the tracker returns an empty trajectory exactly when the frame
source cannot produce a first frame (`F = 0`, covering an unopenable video
and a failed first read); in the shallow embedding the function is total, so
it never raises, and any readable first frame yields a non-empty result. -/
theorem track_empty_iff_no_first_frame (model : KalmanModel κ)
    (flow : FlowOracle) (cfg : TrackConfig) (ips : List Point) (F : ℕ) :
    track model flow cfg ips F = [] ↔ F = 0 := by
  constructor
  · intro h
    by_contra hF
    have hlen := (track_shape model flow cfg ips F hF).1
    rw [h] at hlen
    simp only [List.length_nil] at hlen
    exact hF hlen.symm
  · intro h
    subst h
    rfl

/-- C9: with `N ≥ 1` initial points, no trajectory entry ever contains an
absent (lost) position, for any Kalman model and flow oracle: the center
index `i * points_per_vertex` always stays below the (constant) filter-bank
length, so the zero-valid-samples case always produces a Kalman-predicted
coordinate and the mark-lost branch is unreachable. -/
theorem track_positions_never_absent (model : KalmanModel κ)
    (flow : FlowOracle) (cfg : TrackConfig) (ips : List Point) (F : ℕ)
    (hips : ips ≠ []) :
    ∀ e ∈ track model flow cfg ips F, ∀ v ∈ e, v ≠ none :=
  track_all_some model flow cfg ips F hips

/-- Witness for C9: in a 1-point, 2-frame run where optical flow finds
nothing, the frame-1 position of the vertex is not absent. -/
theorem track_positions_never_absent_applied :
    ((track unitModel noFlow ⟨false, 5, [], "average"⟩
      [(1, 2)] 2).getD 1 []).getD 0 none ≠ none :=
  track_positions_never_absent unitModel noFlow ⟨false, 5, [], "average"⟩
    [(1, 2)] 2 (List.cons_ne_nil _ _) _
    (getD_mem _ 1 [] (by decide)) _ (getD_mem _ 0 none (by decide))

theorem getD_some_lt {α : Type} (l : List (Option α)) (i : ℕ) (x : α)
    (h : l.getD i none = some x) : i < l.length := by
  by_contra hcon
  rw [List.getD_eq_getElem?_getD, List.getElem?_eq_none (by omega)] at h
  exact absurd h (by simp)

theorem getD_getD_some_lt {α : Type} (L : List (List (Option α)))
    (u i : ℕ) (x : α)
    (h : (L.getD u []).getD i none = some x) : u < L.length := by
  by_contra hcon
  rw [List.getD_eq_getElem?_getD L, List.getElem?_eq_none (by omega)] at h
  exact absurd h (by simp)

/-- C6 (contrapositive form): once a vertex's position is absent at frame
`t`, it is absent at every later frame of the same run -- equivalently,
proved here, a position present at a later frame `u` was present at every
earlier frame `t ≤ u`.  In this code the property holds because positions
are never absent at all (see `track_positions_never_absent`); in particular
no new samples are generated for a lost vertex and no reacquisition path
exists. -/
theorem track_loss_is_permanent (model : KalmanModel κ) (flow : FlowOracle)
    (cfg : TrackConfig) (ips : List Point) (F : ℕ)
    (t u i : ℕ) (p : Point) (htu : t ≤ u)
    (hsome : ((track model flow cfg ips F).getD u []).getD i none = some p) :
    ∃ q, ((track model flow cfg ips F).getD t []).getD i none = some q := by
  have hu : u < (track model flow cfg ips F).length :=
    getD_getD_some_lt _ u i p hsome
  have hF : F ≠ 0 := by
    intro h
    subst h
    rw [show track model flow cfg ips 0 = [] from rfl] at hu
    simp at hu
  have hshape := track_shape model flow cfg ips F hF
  have ht : t < (track model flow cfg ips F).length := lt_of_le_of_lt htu hu
  have hiu : i < ((track model flow cfg ips F).getD u []).length :=
    getD_some_lt _ i p hsome
  have hlenu : ((track model flow cfg ips F).getD u []).length = ips.length :=
    hshape.2.2 _ (getD_mem _ u [] hu)
  rw [hlenu] at hiu
  have hips : ips ≠ [] := by
    intro h
    rw [h] at hiu
    simp at hiu
  have hlent : ((track model flow cfg ips F).getD t []).length = ips.length :=
    hshape.2.2 _ (getD_mem _ t [] ht)
  have hit : i < ((track model flow cfg ips F).getD t []).length := by
    rw [hlent]
    exact hiu
  have hne : ((track model flow cfg ips F).getD t []).getD i none ≠ none :=
    track_all_some model flow cfg ips F hips _ (getD_mem _ t [] ht) _
      (getD_mem _ i none hit)
  cases hv : ((track model flow cfg ips F).getD t []).getD i none with
  | none => exact absurd hv hne
  | some q => exact ⟨q, rfl⟩

/-- Witness for C6: a concrete 2-frame run in which the vertex is present at
frame 1, hence present at frame 0. -/
theorem track_loss_is_permanent_applied :
    ∃ q, ((track unitModel noFlow ⟨false, 5, [], "average"⟩
      [(1, 2)] 2).getD 0 []).getD 0 none = some q :=
  track_loss_is_permanent unitModel noFlow ⟨false, 5, [], "average"⟩
    [(1, 2)] 2 0 1 0 (0, 0) (by omega) (by rfl)
